import Mathlib

/-!
Shallow embedding of the warehouse management system (`src/project.cpp`)
and verification of its specification.

Modelling conventions:
* C++ `int` is embedded as `Int` (no claim involves overflow).
* C++ `double` prices are embedded as `ℚ`; the persisted format only keeps
  two decimals, and the spec compares prices at 2-decimal precision.
* `std::map<int, InventoryItem>` is embedded as a key-sorted association
  list (`mapInsert` / `mapErase` / `mapFind` mirror `operator[]=`, `erase`,
  `find`); iteration order is ascending key order, as in the source.
* `std::stack<Transaction>` is a list with the most recent element first;
  `std::queue<Order>` is a list with the front element first.
* Timestamps (`std::time(nullptr)`) are wall-clock I/O and are omitted from
  the embedded records; no claim mentions them.
* Console output (`std::cout`) of the engine operations is returned as a
  `List String` of the exact texts written, so that "reports X" claims can
  be stated.  File persistence (`saveToFile`/`loadFromFile`) is embedded as
  pure functions between catalog states and the character contents of the
  backing file.
-/

/-- Embeds class `InventoryItem` (id, name, category, quantity, price,
minStockLevel). -/
structure InventoryItem where
  id : Int
  name : String
  category : String
  quantity : Int
  price : ℚ
  minStockLevel : Int
deriving DecidableEq

/-- Embeds class `Transaction` (action, itemId, details); the wall-clock
timestamp is omitted. -/
structure Transaction where
  action : String
  itemId : Int
  details : String
deriving DecidableEq

/-- Embeds class `Order` (orderId, itemId, quantity, status); the wall-clock
order time is omitted. -/
structure Order where
  orderId : Int
  itemId : Int
  quantity : Int
  status : String
deriving DecidableEq

/-- Embeds struct `CategoryNode`: a tree node with a name, an ordered list of
children and the list of item ids recorded in this category. -/
inductive CategoryNode where
  | mk (name : String) (children : List CategoryNode) (itemIds : List Int)

/-- Name of a category node. -/
def CategoryNode.name : CategoryNode → String
  | .mk n _ _ => n

/-- Children of a category node (insertion ordered, as in the source vector). -/
def CategoryNode.children : CategoryNode → List CategoryNode
  | .mk _ c _ => c

/-- Item ids recorded at a category node. -/
def CategoryNode.itemIds : CategoryNode → List Int
  | .mk _ _ ids => ids

/-- Lookup in the sorted association list embedding `std::map::find`. -/
def mapFind (k : Int) : List (Int × InventoryItem) → Option InventoryItem
  | [] => none
  | (k', v) :: rest => if k = k' then some v else mapFind k rest

/-- Insert-or-assign in the sorted association list, embedding
`inventory[k] = v`: a fresh key is placed at its sorted position, an existing
key has its value overwritten in place. -/
def mapInsert (k : Int) (v : InventoryItem) :
    List (Int × InventoryItem) → List (Int × InventoryItem)
  | [] => [(k, v)]
  | (k', v') :: rest =>
    if k < k' then (k, v) :: (k', v') :: rest
    else if k = k' then (k, v) :: rest
    else (k', v') :: mapInsert k v rest

/-- Erase in the association list, embedding `std::map::erase(k)` (keys are
unique, so at most one entry is removed). -/
def mapErase (k : Int) : List (Int × InventoryItem) → List (Int × InventoryItem)
  | [] => []
  | (k', v) :: rest => if k = k' then rest else (k', v) :: mapErase k rest

/-- Tokenisation performed by a `while (std::getline(stream, tok, delim))`
loop: the loop body runs once per extracted token and stops at the first
failing extraction.  A trailing delimiter does not produce an extra empty
token, and an empty input produces no tokens. -/
def getlineTokens (d : Char) : List Char → List (List Char)
  | [] => []
  | c :: cs =>
    if c = d then [] :: getlineTokens d cs
    else
      match getlineTokens d cs with
      | [] => [[c]]
      | t :: ts => (c :: t) :: ts

/-- Index of the first child whose name matches the segment, mirroring the
`std::find_if` over `current->children` in `findOrCreateCategory`. -/
def findChildIdx (children : List CategoryNode) (seg : String) : Option Nat :=
  children.findIdx? (fun c => c.name = seg)

/-- Embeds `findOrCreateCategory` followed by
`categoryNode->itemIds.push_back(itemId)`: walk the path segments from the
given node, descending into the child whose name matches the segment and
appending a fresh child at the end of the child vector when the segment is
missing; at the end of the path append the item id. -/
def recordItem : List String → Int → CategoryNode → CategoryNode
  | [], itemId, node => .mk node.name node.children (node.itemIds ++ [itemId])
  | seg :: rest, itemId, node =>
    match findChildIdx node.children seg with
    | some i =>
      .mk node.name
        (node.children.set i
          (recordItem rest itemId (node.children.getD i (.mk "" [] []))))
        node.itemIds
    | none =>
      .mk node.name
        (node.children ++ [recordItem rest itemId (.mk seg [] [])])
        node.itemIds

/-- Embeds class `WarehouseSystem`'s state: the item catalog, the next item
id, the transaction stack (most recent first), the order queue (front first),
the category tree and the next order id.  The backing filename is a constant
and is not part of the state. -/
structure WarehouseSystem where
  inventory : List (Int × InventoryItem)
  nextId : Int
  transactionHistory : List Transaction
  orderQueue : List Order
  categoryRoot : CategoryNode
  nextOrderId : Int

/-- Fresh engine state on a missing backing file: the constructor sets
`nextId = 1`, `nextOrderId = 1`, builds the sentinel "Root" category node and
leaves every collection empty. -/
def initState : WarehouseSystem :=
  { inventory := []
    nextId := 1
    transactionHistory := []
    orderQueue := []
    categoryRoot := .mk "Root" [] []
    nextOrderId := 1 }

/-- Embeds `addTransaction`: push onto the history stack. -/
def addTransaction (s : WarehouseSystem) (action : String) (itemId : Int)
    (details : String) : WarehouseSystem :=
  { s with transactionHistory := ⟨action, itemId, details⟩ :: s.transactionHistory }

/-- Embeds the decimal digits of `n` (least significant first) with enough
fuel; `natDigitsAux n n` is the digit list of `n`. -/
def natDigitsAux : Nat → Nat → List Nat
  | 0, _ => []
  | _, 0 => []
  | fuel + 1, n + 1 => ((n + 1) % 10) :: natDigitsAux fuel ((n + 1) / 10)

/-- Character for a decimal digit. -/
def dChar (d : Nat) : Char := Char.ofNat (48 + d)

/-- Decimal rendering of a natural number, as produced by the C++ stream
`operator<<` and `std::to_string`. -/
def printNat (n : Nat) : List Char :=
  if n = 0 then ['0'] else ((natDigitsAux n n).reverse).map dChar

/-- Decimal rendering of an `int`, as produced by the C++ stream
`operator<<` and `std::to_string`. -/
def printInt (i : Int) : List Char :=
  if i < 0 then '-' :: printNat i.natAbs else printNat i.toNat

/-- String form of an `int`, embedding `std::to_string(i)` and `cout << i`. -/
def strOfInt (i : Int) : String := ⟨printInt i⟩

/-- Embeds `findItem`: `inventory.find(id)`, `nullptr` becoming `none`. -/
def findItem (s : WarehouseSystem) (id : Int) : Option InventoryItem :=
  mapFind id s.inventory

/-- Embeds `getNextId`. -/
def getNextId (s : WarehouseSystem) : Int := s.nextId

/-- Embeds `addItem`: insert-or-overwrite the item by its id, set
`nextId = item.id + 1` unconditionally, record the item id in the category
tree under the item's slash-separated category path, and push an "Add"
transaction.  (The subsequent `saveToFile()` call writes the backing file
and does not change the in-memory state.) -/
def addItem (s : WarehouseSystem) (item : InventoryItem) : WarehouseSystem :=
  let s1 := { s with
    inventory := mapInsert item.id item s.inventory
    nextId := item.id + 1
    categoryRoot :=
      recordItem ((getlineTokens '/' item.category.data).map (fun l => ⟨l⟩))
        item.id s.categoryRoot }
  addTransaction s1 "Add" item.id
    ("Added " ++ item.name ++ " to category " ++ item.category)

/-- Embeds `removeItem`: erase by id, returning whether an entry was erased
(`inventory.erase(id) > 0`). -/
def removeItem (s : WarehouseSystem) (id : Int) : WarehouseSystem × Bool :=
  if (mapFind id s.inventory).isSome then
    ({ s with inventory := mapErase id s.inventory }, true)
  else (s, false)

/-- Embeds `updateItem`: overwrite the record in place when the id exists,
report failure and change nothing otherwise. -/
def updateItem (s : WarehouseSystem) (item : InventoryItem) :
    WarehouseSystem × Bool :=
  if (mapFind item.id s.inventory).isSome then
    ({ s with inventory := mapInsert item.id item s.inventory }, true)
  else (s, false)

/-- Embeds `getAllItems`: snapshot copy of the catalog values in map
iteration order (ascending id). -/
def getAllItems (s : WarehouseSystem) : List InventoryItem :=
  s.inventory.map Prod.snd

/-- Embeds `createOrder`: when the item exists and the quantity is positive,
append a new `Pending` order carrying the current `nextOrderId` to the back
of the queue, increment `nextOrderId`, record an "Order Created" transaction
and report success; otherwise change nothing and report an invalid order.
The second component is the list of texts written to `std::cout`. -/
def createOrder (s : WarehouseSystem) (itemId quantity : Int) :
    WarehouseSystem × List String :=
  match findItem s itemId with
  | some _ =>
    if 0 < quantity then
      ({ s with
          orderQueue := s.orderQueue ++ [⟨s.nextOrderId, itemId, quantity, "Pending"⟩]
          nextOrderId := s.nextOrderId + 1
          transactionHistory :=
            ⟨"Order Created", itemId,
              "Ordered " ++ strOfInt quantity ++ " units"⟩ :: s.transactionHistory },
        ["Order created successfully!\n"])
    else (s, ["Invalid item ID or quantity!\n"])
  | none => (s, ["Invalid item ID or quantity!\n"])

/-- Embeds `processNextOrder`: on an empty queue report and stop; otherwise
pop the front order; if its item is missing the order is silently dropped;
if stock suffices, decrement the item quantity in place, record an
"Order Processed" transaction and report success; otherwise re-push the
unchanged order at the back and report insufficient stock.  The second
component is the list of texts written to `std::cout`. -/
def processNextOrder (s : WarehouseSystem) : WarehouseSystem × List String :=
  match s.orderQueue with
  | [] => (s, ["No orders to process!\n"])
  | order :: rest =>
    let s1 := { s with orderQueue := rest }
    match mapFind order.itemId s1.inventory with
    | some item =>
      if order.quantity ≤ item.quantity then
        ({ s1 with
            inventory :=
              mapInsert order.itemId
                { item with quantity := item.quantity - order.quantity }
                s1.inventory
            transactionHistory :=
              ⟨"Order Processed", order.itemId,
                "Processed order #" ++ strOfInt order.orderId ++ " for " ++
                  strOfInt order.quantity ++ " units"⟩ :: s1.transactionHistory },
          ["Order #" ++ strOfInt order.orderId ++ " processed successfully!\n"])
      else
        ({ s1 with orderQueue := rest ++ [order] },
          ["Insufficient stock for order #" ++ strOfInt order.orderId ++ "!\n"])
    | none => (s1, [])

/-- One engine command, for stating invariants over arbitrary call
sequences. -/
inductive Cmd where
  | addC (item : InventoryItem)
  | removeC (id : Int)
  | updateC (item : InventoryItem)
  | createC (itemId quantity : Int)
  | processC

/-- State transition of a single engine command (console output and returned
booleans discarded). -/
def stepCmd (s : WarehouseSystem) : Cmd → WarehouseSystem
  | .addC item => addItem s item
  | .removeC id => (removeItem s id).1
  | .updateC item => (updateItem s item).1
  | .createC itemId quantity => (createOrder s itemId quantity).1
  | .processC => (processNextOrder s).1

/-- Run a sequence of engine commands. -/
def run (s : WarehouseSystem) (cmds : List Cmd) : WarehouseSystem :=
  cmds.foldl stepCmd s

/-- Run a sequence consisting only of `removeItem` (`.inl id`) and
`updateItem` (`.inr item`) calls. -/
def runRU (s : WarehouseSystem) (ops : List (Int ⊕ InventoryItem)) :
    WarehouseSystem :=
  ops.foldl (fun s op =>
    match op with
    | .inl id => (removeItem s id).1
    | .inr item => (updateItem s item).1) s

/-- Whitespace test of `std::isspace` in the default locale, used by
`std::stoi`/`std::stod` to skip leading whitespace. -/
def isWSChar (c : Char) : Bool :=
  c = ' ' || c = '\t' || c = '\n' || c = '\x0b' || c = '\x0c' || c = '\r'

/-- Decimal digit test (`'0'` to `'9'`). -/
def isDigitChar (c : Char) : Bool :=
  48 ≤ c.toNat && c.toNat ≤ 57

/-- Value of a maximal leading run of decimal digits, or `none` when the run
is empty (in which case `std::stoi`/`std::stod` throw). -/
def digitsVal (cs : List Char) : Option Nat :=
  if (cs.takeWhile isDigitChar).isEmpty then none
  else some ((cs.takeWhile isDigitChar).foldl (fun a c => 10 * a + (c.toNat - 48)) 0)

/-- Embeds `std::stoi` on the strings this program feeds it: skip leading
whitespace, read an optional sign and a nonempty digit run, ignore the rest;
`none` models the `std::invalid_argument` throw on a missing digit run. -/
def stoiChars (cs : List Char) : Option Int :=
  match cs.dropWhile isWSChar with
  | [] => none
  | c :: rest =>
    if c = '-' then (digitsVal rest).map (fun n => -(Int.ofNat n))
    else if c = '+' then (digitsVal rest).map (fun n => Int.ofNat n)
    else (digitsVal (c :: rest)).map (fun n => Int.ofNat n)

/-- Value of an optionally signed plain decimal literal
(`digits`, `digits.digits` or `.digits`), or `none` when no digit is
present.  This is the fragment of `std::stod` exercised by the persisted
price fields, which never carry exponents, hex or infinities. -/
def decVal (cs : List Char) : Option ℚ :=
  match cs.dropWhile isDigitChar with
  | c :: rest2 =>
    if c = '.' then
      if (cs.takeWhile isDigitChar).isEmpty && (rest2.takeWhile isDigitChar).isEmpty then
        none
      else
        some ((((cs.takeWhile isDigitChar).foldl
              (fun a c => 10 * a + (c.toNat - 48)) 0 : ℕ) : ℚ) +
          (((rest2.takeWhile isDigitChar).foldl
              (fun a c => 10 * a + (c.toNat - 48)) 0 : ℕ) : ℚ) /
            (10 : ℚ) ^ (rest2.takeWhile isDigitChar).length)
    else
      if (cs.takeWhile isDigitChar).isEmpty then none
      else some ((((cs.takeWhile isDigitChar).foldl
        (fun a c => 10 * a + (c.toNat - 48)) 0 : ℕ) : ℚ))
  | [] =>
    if (cs.takeWhile isDigitChar).isEmpty then none
    else some ((((cs.takeWhile isDigitChar).foldl
      (fun a c => 10 * a + (c.toNat - 48)) 0 : ℕ) : ℚ))

/-- Embeds `std::stod` on the strings this program feeds it; `none` models
the `std::invalid_argument` throw. -/
def stodChars (cs : List Char) : Option ℚ :=
  match cs.dropWhile isWSChar with
  | [] => none
  | c :: rest =>
    if c = '-' then (decVal rest).map (fun q => -q)
    else if c = '+' then decVal rest
    else decVal (c :: rest)

/-- Splits off the first token up to a delimiter: returns the token, the
remaining characters after the delimiter, and whether the end of input was
hit before a delimiter was found. -/
def splitAtDelim (d : Char) : List Char → List Char × List Char × Bool
  | [] => ([], [], true)
  | c :: cs =>
    if c = d then ([], cs, false)
    else
      let r := splitAtDelim d cs
      (c :: r.1, r.2.1, r.2.2)

/-- One `std::getline(stream, var, ',')` call on a string stream whose state
is `(remaining characters, eofbit, failbit)`; `cur` is the current value of
the target variable.  A failed sentry (eofbit or failbit already set) sets
failbit and leaves the variable untouched; extracting nothing from an
exhausted good stream clears the variable and sets eofbit and failbit;
otherwise the token up to the delimiter (or end of input, which sets eofbit)
is stored. -/
def getlineStep (st : List Char × Bool × Bool) (cur : List Char) :
    List Char × (List Char × Bool × Bool) :=
  if st.2.1 || st.2.2 then (cur, (st.1, st.2.1, true))
  else
    match st.1 with
    | [] => ([], ([], true, true))
    | c :: cs =>
      let r := splitAtDelim ',' (c :: cs)
      (r.1, (r.2.1, r.2.2, false))

/-- Embeds the per-line parsing block of `loadFromFile`: six
`std::getline(ss, _, ',')` calls share the stream and the `token` buffer in
the order id, name, category, quantity, price, minStockLevel, each numeric
field being converted immediately; `none` models the uncaught conversion
throw that aborts the load. -/
def parseLine (line : List Char) : Option InventoryItem :=
  let r1 := getlineStep (line, false, false) []
  match stoiChars r1.1 with
  | none => none
  | some id =>
    let r2 := getlineStep r1.2 []
    let r3 := getlineStep r2.2 []
    let r4 := getlineStep r3.2 r1.1
    match stoiChars r4.1 with
    | none => none
    | some quantity =>
      let r5 := getlineStep r4.2 r4.1
      match stodChars r5.1 with
      | none => none
      | some price =>
        let r6 := getlineStep r5.2 r5.1
        match stoiChars r6.1 with
        | none => none
        | some minStockLevel =>
          some ⟨id, ⟨r2.1⟩, ⟨r3.1⟩, quantity, price, minStockLevel⟩

/-- Two fixed decimal digits then the fractional part of a cent count, and
the integral part before them: the body of `std::fixed <<
std::setprecision(2)` output for a nonnegative number of cents `m`,
i.e. `m / 100` then `'.'` then the two digits of `m % 100`. -/
def priceBody (m : Nat) : List Char :=
  printNat (m / 100) ++ '.' :: [dChar (m / 10 % 10), dChar (m % 10)]

/-- Embeds `std::fixed << std::setprecision(2) << price`: the price rounded
to a whole number of cents, rendered with exactly two digits after the
decimal point (and a leading minus sign for a negative cent count). -/
def printPrice (p : ℚ) : List Char :=
  if round ((100 : ℚ) * p) < 0 then '-' :: priceBody (round ((100 : ℚ) * p)).natAbs
  else priceBody (round ((100 : ℚ) * p)).toNat

/-- The CSV line `saveToFile` writes for one item (excluding the trailing
newline). -/
def itemLine (item : InventoryItem) : List Char :=
  printInt item.id ++
    (',' :: (item.name.data ++
      (',' :: (item.category.data ++
        (',' :: (printInt item.quantity ++
          (',' :: (printPrice item.price ++
            (',' :: printInt item.minStockLevel)))))))))

/-- The header line `saveToFile` writes. -/
def headerChars : List Char := "ID,Name,Category,Quantity,Price,MinStockLevel".data

/-- The item lines of the persisted file, each terminated by a newline, in
map iteration order. -/
def saveLines : List (Int × InventoryItem) → List Char
  | [] => []
  | p :: rest => itemLine p.2 ++ '\n' :: saveLines rest

/-- Embeds `saveToFile`: the full character contents of the backing file
written for a catalog state. -/
def saveToFile (inventory : List (Int × InventoryItem)) : List Char :=
  headerChars ++ '\n' :: saveLines inventory

/-- The line loop of `loadFromFile`: parse each line, inserting
`inventory[id] = item` and updating `nextId = max(nextId, id + 1)`; a
conversion throw aborts the whole load. -/
def loadLines : List (List Char) → List (Int × InventoryItem) → Int →
    Option (List (Int × InventoryItem) × Int)
  | [], inv, nid => some (inv, nid)
  | line :: rest, inv, nid =>
    match parseLine line with
    | none => none
    | some item =>
      loadLines rest (mapInsert item.id item inv) (max nid (item.id + 1))

/-- Embeds `loadFromFile` on an existing backing file: split the contents
into lines as the `while (std::getline(file, line))` loop does, skip the
header line, then run the line loop starting from an empty catalog and
`nextId = 1` (the constructor's initial value).  The result is the loaded
catalog and `nextId`, or `none` when an unparsable numeric field aborts the
constructor. -/
def loadFromFile (file : List Char) : Option (List (Int × InventoryItem) × Int) :=
  match getlineTokens '\n' file with
  | [] => some ([], 1)
  | _header :: lines => loadLines lines [] 1

/-- The observable tuple of an item, with the price compared at 2-decimal
precision (as a whole number of cents). -/
def itemTuple (item : InventoryItem) : Int × String × String × Int × Int × Int :=
  (item.id, item.name, item.category, item.quantity,
    round ((100 : ℚ) * item.price), item.minStockLevel)

/-- The item with its price replaced by the 2-decimal value actually
persisted. -/
def roundItem (item : InventoryItem) : InventoryItem :=
  { item with price := ((round ((100 : ℚ) * item.price) : Int) : ℚ) / 100 }

/-- Well-formedness of the catalog association list, an invariant of the
`std::map` it embeds: keys strictly ascending and each key equal to the id
of its item. -/
def InvWF (inv : List (Int × InventoryItem)) : Prop :=
  inv.Pairwise (fun p q => p.1 < q.1) ∧ ∀ p ∈ inv, p.1 = p.2.id

instance : DecidablePred InvWF := fun inv => by
  unfold InvWF; infer_instance

/-- An item whose free-text fields survive the unescaped CSV format: neither
the name nor the category contains a comma or a newline. -/
def CommaSafe (item : InventoryItem) : Prop :=
  ',' ∉ item.name.data ∧ '\n' ∉ item.name.data ∧
    ',' ∉ item.category.data ∧ '\n' ∉ item.category.data

instance : DecidablePred CommaSafe := fun item => by
  unfold CommaSafe; infer_instance

/-- Fold a list of `addItem` calls over a state. -/
def addItems (s : WarehouseSystem) (items : List InventoryItem) : WarehouseSystem :=
  items.foldl addItem s

/-- Value of a little-endian decimal digit list. -/
def valLE (l : List Nat) : Nat := l.foldr (fun d a => d + 10 * a) 0

/-- Example state: one item with id 5, quantity 10. -/
def exAdd : WarehouseSystem := addItem initState ⟨5, "X", "C", 10, 0, 0⟩

/-- Example state: item 5 (quantity 10) with one pending order for 3 units. -/
def exOrdered : WarehouseSystem := (createOrder exAdd 5 3).1

/-- Example state: one item with id 5, quantity 2. -/
def exAdd2 : WarehouseSystem := addItem initState ⟨5, "X", "C", 2, 0, 0⟩

/-- Example state: item 5 (quantity 2) with one pending order for 5 units. -/
def exOrdered2 : WarehouseSystem := (createOrder exAdd2 5 5).1

/-- Example state: a pending order whose item has been removed. -/
def exMissing : WarehouseSystem := (removeItem exOrdered 5).1

theorem mapFind_mapInsert_self (k : Int) (v : InventoryItem)
    (l : List (Int × InventoryItem)) : mapFind k (mapInsert k v l) = some v := by
  induction l with
  | nil => simp [mapInsert, mapFind]
  | cons p rest ih =>
    obtain ⟨k', v'⟩ := p
    by_cases h1 : k < k'
    · simp [mapInsert, h1, mapFind]
    · by_cases h2 : k = k'
      · simp [mapInsert, h1, h2, mapFind]
      · simp [mapInsert, h1, h2, mapFind, ih]

theorem mapFind_mapInsert_ne (j k : Int) (v : InventoryItem)
    (l : List (Int × InventoryItem)) (h : j ≠ k) :
    mapFind j (mapInsert k v l) = mapFind j l := by
  induction l with
  | nil => simp [mapInsert, mapFind, h]
  | cons p rest ih =>
    obtain ⟨k', v'⟩ := p
    by_cases h1 : k < k'
    · simp [mapInsert, h1, mapFind, h]
    · by_cases h2 : k = k'
      · subst h2; simp [mapInsert, h1, mapFind, h]
      · by_cases h3 : j = k'
        · simp [mapInsert, h1, h2, mapFind, h3]
        · simp [mapInsert, h1, h2, mapFind, h3, ih]

/-- C7: `updateItem(item)` returns true and overwrites the stored record in
place exactly when an item with that id already exists in the catalog; for
every id not present it returns false and leaves the entire catalog (and the
whole engine state) unchanged. -/
theorem updateItem_exact (s : WarehouseSystem) (item : InventoryItem) :
    (updateItem s item).2 = (mapFind item.id s.inventory).isSome ∧
    (∀ v, mapFind item.id s.inventory = some v →
      updateItem s item =
        ({ s with inventory := mapInsert item.id item s.inventory }, true) ∧
      mapFind item.id (updateItem s item).1.inventory = some item ∧
      ∀ k, k ≠ item.id →
        mapFind k (updateItem s item).1.inventory = mapFind k s.inventory) ∧
    (mapFind item.id s.inventory = none → updateItem s item = (s, false)) := by
  refine ⟨?_, fun v hv => ?_, fun hn => ?_⟩
  · unfold updateItem; split <;> simp_all
  · have h1 : updateItem s item =
        ({ s with inventory := mapInsert item.id item s.inventory }, true) := by
      unfold updateItem; rw [hv]; simp
    refine ⟨h1, ?_, fun k hk => ?_⟩
    · rw [h1]; exact mapFind_mapInsert_self item.id item s.inventory
    · rw [h1]; exact mapFind_mapInsert_ne k item.id item s.inventory hk
  · unfold updateItem; rw [hn]; simp

/-- Witness for C7 at concrete states: updating an existing id 5 overwrites
it in place and reports true; updating an absent id 7 is a no-op reporting
false. -/
theorem updateItem_exact_witness :
    mapFind 5 exAdd.inventory = some ⟨5, "X", "C", 10, 0, 0⟩ ∧
    updateItem exAdd ⟨5, "Y", "C", 4, 0, 0⟩ =
      ({ exAdd with inventory := mapInsert 5 ⟨5, "Y", "C", 4, 0, 0⟩ exAdd.inventory },
        true) ∧
    mapFind 7 exAdd.inventory = none ∧
    updateItem exAdd ⟨7, "Z", "C", 1, 0, 0⟩ = (exAdd, false) := by
  refine ⟨by decide, ?_, by decide, ?_⟩
  · exact ((updateItem_exact exAdd ⟨5, "Y", "C", 4, 0, 0⟩).2.1
      ⟨5, "X", "C", 10, 0, 0⟩ (by decide)).1
  · exact (updateItem_exact exAdd ⟨7, "Z", "C", 1, 0, 0⟩).2.2 (by decide)

/-- C2: when the front order of a non-empty queue references an existing
item whose quantity is at least the order quantity, `processNextOrder`
decrements that item's quantity by exactly the order quantity, removes the
order permanently from the queue, records an "Order Processed" transaction
and reports success; all other items are unchanged. -/
theorem processNextOrder_success (s : WarehouseSystem) (order : Order)
    (rest : List Order) (item : InventoryItem)
    (hq : s.orderQueue = order :: rest)
    (hf : mapFind order.itemId s.inventory = some item)
    (hle : order.quantity ≤ item.quantity) :
    processNextOrder s =
      ({ s with
          inventory := mapInsert order.itemId
            { item with quantity := item.quantity - order.quantity } s.inventory
          orderQueue := rest
          transactionHistory :=
            ⟨"Order Processed", order.itemId,
              "Processed order #" ++ strOfInt order.orderId ++ " for " ++
                strOfInt order.quantity ++ " units"⟩ :: s.transactionHistory },
        ["Order #" ++ strOfInt order.orderId ++ " processed successfully!\n"]) ∧
    mapFind order.itemId (processNextOrder s).1.inventory =
      some { item with quantity := item.quantity - order.quantity } ∧
    ∀ k, k ≠ order.itemId →
      mapFind k (processNextOrder s).1.inventory = mapFind k s.inventory := by
  obtain ⟨inv, nid, hist, q, croot, noid⟩ := s
  dsimp only at hq hf ⊢
  subst hq
  have h1 : processNextOrder ⟨inv, nid, hist, order :: rest, croot, noid⟩ =
      (WarehouseSystem.mk
        (mapInsert order.itemId
          { item with quantity := item.quantity - order.quantity } inv)
        nid
        (⟨"Order Processed", order.itemId,
          "Processed order #" ++ strOfInt order.orderId ++ " for " ++
            strOfInt order.quantity ++ " units"⟩ :: hist)
        rest croot noid,
        ["Order #" ++ strOfInt order.orderId ++ " processed successfully!\n"]) := by
    unfold processNextOrder
    dsimp only
    rw [hf]
    dsimp only
    rw [if_pos hle]
  refine ⟨h1, ?_, fun k hk => ?_⟩
  · rw [h1]
    exact mapFind_mapInsert_self order.itemId _ inv
  · rw [h1]
    exact mapFind_mapInsert_ne k order.itemId _ inv hk

/-- Witness for C2 at a concrete state: an item with quantity 10 and an
order for 3 units yield quantity 7 and an empty queue. -/
theorem processNextOrder_success_witness :
    exOrdered.orderQueue = [⟨1, 5, 3, "Pending"⟩] ∧
    mapFind 5 exOrdered.inventory = some ⟨5, "X", "C", 10, 0, 0⟩ ∧
    (3 : Int) ≤ 10 ∧
    mapFind 5 (processNextOrder exOrdered).1.inventory =
      some ⟨5, "X", "C", 7, 0, 0⟩ ∧
    (processNextOrder exOrdered).1.orderQueue = [] := by
  refine ⟨by decide, by decide, by decide, ?_, ?_⟩
  · have h := (processNextOrder_success exOrdered ⟨1, 5, 3, "Pending"⟩ []
      ⟨5, "X", "C", 10, 0, 0⟩ (by decide) (by decide) (by decide)).2.1
    simpa using h
  · have h := (processNextOrder_success exOrdered ⟨1, 5, 3, "Pending"⟩ []
      ⟨5, "X", "C", 10, 0, 0⟩ (by decide) (by decide) (by decide)).1
    rw [h]

/-- C3: when the front order references an existing item whose quantity is
strictly less than the order quantity, `processNextOrder` reports
insufficient stock, leaves the inventory and transaction log unchanged, and
moves the unchanged order to the back of the queue, so the queue length is
unchanged. -/
theorem processNextOrder_insufficient (s : WarehouseSystem) (order : Order)
    (rest : List Order) (item : InventoryItem)
    (hq : s.orderQueue = order :: rest)
    (hf : mapFind order.itemId s.inventory = some item)
    (hlt : item.quantity < order.quantity) :
    processNextOrder s =
      ({ s with orderQueue := rest ++ [order] },
        ["Insufficient stock for order #" ++ strOfInt order.orderId ++ "!\n"]) ∧
    (processNextOrder s).1.orderQueue.length = s.orderQueue.length := by
  obtain ⟨inv, nid, hist, q, croot, noid⟩ := s
  dsimp only at hq hf ⊢
  subst hq
  have h1 : processNextOrder ⟨inv, nid, hist, order :: rest, croot, noid⟩ =
      (WarehouseSystem.mk inv nid hist (rest ++ [order]) croot noid,
        ["Insufficient stock for order #" ++ strOfInt order.orderId ++ "!\n"]) := by
    unfold processNextOrder
    dsimp only
    rw [hf]
    dsimp only
    rw [if_neg (not_le.mpr hlt)]
  refine ⟨h1, ?_⟩
  rw [h1]
  simp

/-- Witness for C3 at a concrete state: an item with quantity 2 and an
order for 5 units: the order is re-queued at the back, and queue length,
item quantity and transaction log are unchanged. -/
theorem processNextOrder_insufficient_witness :
    exOrdered2.orderQueue = [⟨1, 5, 5, "Pending"⟩] ∧
    mapFind 5 exOrdered2.inventory = some ⟨5, "X", "C", 2, 0, 0⟩ ∧
    (2 : Int) < 5 ∧
    processNextOrder exOrdered2 =
      ({ exOrdered2 with orderQueue := [⟨1, 5, 5, "Pending"⟩] },
        ["Insufficient stock for order #" ++ strOfInt 1 ++ "!\n"]) := by
  refine ⟨by decide, by decide, by decide, ?_⟩
  have h := (processNextOrder_insufficient exOrdered2 ⟨1, 5, 5, "Pending"⟩ []
    ⟨5, "X", "C", 2, 0, 0⟩ (by decide) (by decide) (by decide)).1
  simpa using h

/-- C6: when the front order references an item id absent from the catalog,
`processNextOrder` silently drops that order: the queue shrinks by one, the
order is not re-queued, no transaction is recorded, nothing is written to
the console, and the catalog is unchanged. -/
theorem processNextOrder_missing (s : WarehouseSystem) (order : Order)
    (rest : List Order)
    (hq : s.orderQueue = order :: rest)
    (hf : mapFind order.itemId s.inventory = none) :
    processNextOrder s = ({ s with orderQueue := rest }, []) ∧
    (processNextOrder s).1.orderQueue.length + 1 = s.orderQueue.length := by
  obtain ⟨inv, nid, hist, q, croot, noid⟩ := s
  dsimp only at hq hf ⊢
  subst hq
  have h1 : processNextOrder ⟨inv, nid, hist, order :: rest, croot, noid⟩ =
      (WarehouseSystem.mk inv nid hist rest croot noid, []) := by
    unfold processNextOrder
    dsimp only
    rw [hf]
  refine ⟨h1, ?_⟩
  rw [h1]
  simp

/-- Witness for C6 at a concrete state: the only order references the
removed item 5; processing silently drops it, leaving an empty queue, no
console output and no new transaction. -/
theorem processNextOrder_missing_witness :
    exMissing.orderQueue = [⟨1, 5, 3, "Pending"⟩] ∧
    mapFind 5 exMissing.inventory = none ∧
    processNextOrder exMissing = ({ exMissing with orderQueue := [] }, []) := by
  refine ⟨by decide, by decide, ?_⟩
  have h := (processNextOrder_missing exMissing ⟨1, 5, 3, "Pending"⟩ []
    (by decide) (by decide)).1
  simpa using h

/-- C1 counterexample: adding item id 5 and then item id 2, `getNextId`
returns 3 (last id + 1), not `max(5, 2) + 1 = 6`, and `nextId` is not
greater than the previously inserted id 5. -/
theorem addItem_nextId_counterexample :
    getNextId (addItem (addItem initState ⟨5, "A", "C", 1, 0, 0⟩)
      ⟨2, "B", "C", 1, 0, 0⟩) = 3 ∧
    ¬ getNextId (addItem (addItem initState ⟨5, "A", "C", 1, 0, 0⟩)
      ⟨2, "B", "C", 1, 0, 0⟩) = 6 ∧
    ¬ (5 : Int) < getNextId (addItem (addItem initState ⟨5, "A", "C", 1, 0, 0⟩)
      ⟨2, "B", "C", 1, 0, 0⟩) := by
  refine ⟨rfl, by decide, by decide⟩

/-- C1 (amended): after each `addItem` call, `getNextId` equals the id of
the most recently added item plus 1; when the ids are added in nondecreasing
order this coincides with `max(all ids added so far) + 1` and `nextId` is
strictly greater than every id inserted; and removals never change
`nextId`. -/
theorem addItem_nextId_amended (s : WarehouseSystem) (items : List InventoryItem)
    (item : InventoryItem) :
    getNextId (addItems s (items ++ [item])) = item.id + 1 ∧
    ((items ++ [item]).Pairwise (fun a b => a.id ≤ b.id) →
      ∀ it ∈ items ++ [item], it.id < getNextId (addItems s (items ++ [item]))) ∧
    ∀ id, ((removeItem (addItems s (items ++ [item])) id).1).nextId =
      getNextId (addItems s (items ++ [item])) := by
  have hlast : addItems s (items ++ [item]) = addItem (addItems s items) item := by
    unfold addItems
    rw [List.foldl_append]
    rfl
  have h1 : getNextId (addItems s (items ++ [item])) = item.id + 1 := by
    rw [hlast]; rfl
  refine ⟨h1, fun hp it hit => ?_, fun id => ?_⟩
  · rw [h1]
    rcases List.mem_append.mp hit with h | h
    · have := (List.pairwise_append.mp hp).2.2 it h item (by simp)
      omega
    · simp only [List.mem_singleton] at h
      subst h
      omega
  · unfold removeItem
    split <;> rfl

/-- Witness for the amended C1: adding ids 1 then 4 in increasing order
gives `getNextId = 5`, strictly above both inserted ids. -/
theorem addItem_nextId_amended_witness :
    getNextId (addItems initState [⟨1, "A", "C", 1, 0, 0⟩, ⟨4, "B", "C", 1, 0, 0⟩]) = 5 ∧
    ([⟨1, "A", "C", 1, 0, 0⟩, ⟨4, "B", "C", 1, 0, 0⟩] :
      List InventoryItem).Pairwise (fun a b => a.id ≤ b.id) ∧
    (1 : Int) < 5 ∧ (4 : Int) < 5 := by
  have h := addItem_nextId_amended initState [⟨1, "A", "C", 1, 0, 0⟩]
    ⟨4, "B", "C", 1, 0, 0⟩
  have h2 := h.2.1 (by decide) ⟨1, "A", "C", 1, 0, 0⟩ (by decide)
  have h3 := h.2.1 (by decide) ⟨4, "B", "C", 1, 0, 0⟩ (by decide)
  rw [h.1] at h2 h3
  exact ⟨h.1, by decide, h2, h3⟩

theorem addItem_orderQueue (s : WarehouseSystem) (item : InventoryItem) :
    (addItem s item).orderQueue = s.orderQueue := rfl

theorem removeItem_orderQueue (s : WarehouseSystem) (id : Int) :
    ((removeItem s id).1).orderQueue = s.orderQueue := by
  unfold removeItem; split <;> rfl

theorem updateItem_orderQueue (s : WarehouseSystem) (item : InventoryItem) :
    ((updateItem s item).1).orderQueue = s.orderQueue := by
  unfold updateItem; split <;> rfl

theorem createOrder_cases (s : WarehouseSystem) (itemId q : Int) :
    createOrder s itemId q = (s, ["Invalid item ID or quantity!\n"]) ∨
    (createOrder s itemId q).1 =
      { s with
          orderQueue := s.orderQueue ++ [⟨s.nextOrderId, itemId, q, "Pending"⟩],
          nextOrderId := s.nextOrderId + 1,
          transactionHistory :=
            ⟨"Order Created", itemId, "Ordered " ++ strOfInt q ++ " units"⟩ ::
              s.transactionHistory } := by
  unfold createOrder
  cases findItem s itemId <;> dsimp only
  · left; rfl
  · split
    · right; rfl
    · left; rfl

theorem processNextOrder_queue_cases (s : WarehouseSystem) :
    ((processNextOrder s).1.orderQueue = s.orderQueue ∧
      (processNextOrder s).1.nextOrderId = s.nextOrderId) ∨
    ∃ order rest, s.orderQueue = order :: rest ∧
      (processNextOrder s).1.nextOrderId = s.nextOrderId ∧
      ((processNextOrder s).1.orderQueue = rest ∨
        (processNextOrder s).1.orderQueue = rest ++ [order]) := by
  unfold processNextOrder
  cases hq : s.orderQueue with
  | nil =>
    dsimp only
    exact Or.inl ⟨hq, rfl⟩
  | cons order rest =>
    dsimp only
    cases mapFind order.itemId s.inventory <;> dsimp only
    · right; exact ⟨order, rest, rfl, rfl, Or.inl rfl⟩
    · split
      · right; exact ⟨order, rest, rfl, rfl, Or.inl rfl⟩
      · right; exact ⟨order, rest, rfl, rfl, Or.inr rfl⟩

theorem stepCmd_pending (s : WarehouseSystem) (c : Cmd)
    (h : ∀ o ∈ s.orderQueue, o.status = "Pending") :
    ∀ o ∈ (stepCmd s c).orderQueue, o.status = "Pending" := by
  cases c with
  | addC item => exact h
  | removeC id =>
    intro o ho
    rw [show (stepCmd s (.removeC id)).orderQueue = ((removeItem s id).1).orderQueue
      from rfl, removeItem_orderQueue] at ho
    exact h o ho
  | updateC item =>
    intro o ho
    rw [show (stepCmd s (.updateC item)).orderQueue = ((updateItem s item).1).orderQueue
      from rfl, updateItem_orderQueue] at ho
    exact h o ho
  | createC itemId q =>
    intro o ho
    have ho' : o ∈ (createOrder s itemId q).1.orderQueue := ho
    rcases createOrder_cases s itemId q with hc | hc
    · rw [hc] at ho'
      exact h o ho'
    · rw [hc] at ho'
      rcases List.mem_append.mp ho' with h1 | h1
      · exact h o h1
      · simp only [List.mem_singleton] at h1
        subst h1
        rfl
  | processC =>
    intro o ho
    have ho' : o ∈ (processNextOrder s).1.orderQueue := ho
    rcases processNextOrder_queue_cases s with ⟨hc, _⟩ | ⟨order, rest, hq, _, hc | hc⟩
    · rw [hc] at ho'
      exact h o ho'
    · rw [hc] at ho'
      exact h o (by rw [hq]; exact List.mem_cons_of_mem order ho')
    · rw [hc] at ho'
      rcases List.mem_append.mp ho' with h1 | h1
      · exact h o (by rw [hq]; exact List.mem_cons_of_mem order h1)
      · simp only [List.mem_singleton] at h1
        subst h1
        exact h o (by rw [hq]; exact List.mem_cons_self o rest)

/-- C9: every order present in the queue has status "Pending" at all times:
orders are created with status "Pending" and no engine operation (including
order fulfilment, which removes the order without setting "Fulfilled") ever
changes an order's status, over every command sequence. -/
theorem orderQueue_status_pending (s : WarehouseSystem) (cmds : List Cmd)
    (h : ∀ o ∈ s.orderQueue, o.status = "Pending") :
    ∀ o ∈ (run s cmds).orderQueue, o.status = "Pending" := by
  induction cmds generalizing s with
  | nil => exact h
  | cons c cs ih => exact ih (stepCmd s c) (stepCmd_pending s c h)

/-- Witness for C9: after adding an item and creating an order from the
fresh state, the queued order has status "Pending". -/
theorem orderQueue_status_pending_witness :
    (⟨1, 5, 3, "Pending"⟩ : Order) ∈
      (run initState [.addC ⟨5, "X", "C", 10, 0, 0⟩, .createC 5 3]).orderQueue ∧
    (⟨1, 5, 3, "Pending"⟩ : Order).status = "Pending" := by
  refine ⟨by decide, ?_⟩
  exact orderQueue_status_pending initState [.addC ⟨5, "X", "C", 10, 0, 0⟩, .createC 5 3]
    (by decide) ⟨1, 5, 3, "Pending"⟩ (by decide)

theorem stepCmd_nextOrderId_le (s : WarehouseSystem) (c : Cmd) :
    s.nextOrderId ≤ (stepCmd s c).nextOrderId := by
  cases c with
  | addC item => exact le_refl _
  | removeC id =>
    have h : (stepCmd s (.removeC id)).nextOrderId = s.nextOrderId := by
      show ((removeItem s id).1).nextOrderId = s.nextOrderId
      unfold removeItem; split <;> rfl
    rw [h]
  | updateC item =>
    have h : (stepCmd s (.updateC item)).nextOrderId = s.nextOrderId := by
      show ((updateItem s item).1).nextOrderId = s.nextOrderId
      unfold updateItem; split <;> rfl
    rw [h]
  | createC itemId q =>
    rcases createOrder_cases s itemId q with hc | hc
    · show s.nextOrderId ≤ (createOrder s itemId q).1.nextOrderId
      rw [hc]
    · show s.nextOrderId ≤ (createOrder s itemId q).1.nextOrderId
      rw [hc]
      exact le_of_lt (lt_add_one _)
  | processC =>
    rcases processNextOrder_queue_cases s with ⟨_, hn⟩ | ⟨order, rest, _, hn, _⟩ <;>
      · show s.nextOrderId ≤ (processNextOrder s).1.nextOrderId
        rw [hn]

theorem run_nextOrderId_le (cmds : List Cmd) :
    ∀ s : WarehouseSystem, s.nextOrderId ≤ (run s cmds).nextOrderId := by
  induction cmds with
  | nil => intro s; exact le_refl _
  | cons c cs ih =>
    intro s
    exact le_trans (stepCmd_nextOrderId_le s c) (ih (stepCmd s c))

theorem stepCmd_orderIdInv (s : WarehouseSystem) (c : Cmd)
    (h : ∀ o ∈ s.orderQueue, o.orderId < s.nextOrderId) :
    ∀ o ∈ (stepCmd s c).orderQueue, o.orderId < (stepCmd s c).nextOrderId := by
  cases c with
  | addC item => exact h
  | removeC id =>
    intro o ho
    rw [show (stepCmd s (.removeC id)).orderQueue = ((removeItem s id).1).orderQueue
      from rfl, removeItem_orderQueue] at ho
    have hn : (stepCmd s (.removeC id)).nextOrderId = s.nextOrderId := by
      show ((removeItem s id).1).nextOrderId = s.nextOrderId
      unfold removeItem; split <;> rfl
    rw [hn]
    exact h o ho
  | updateC item =>
    intro o ho
    rw [show (stepCmd s (.updateC item)).orderQueue = ((updateItem s item).1).orderQueue
      from rfl, updateItem_orderQueue] at ho
    have hn : (stepCmd s (.updateC item)).nextOrderId = s.nextOrderId := by
      show ((updateItem s item).1).nextOrderId = s.nextOrderId
      unfold updateItem; split <;> rfl
    rw [hn]
    exact h o ho
  | createC itemId q =>
    intro o ho
    have ho' : o ∈ (createOrder s itemId q).1.orderQueue := ho
    show o.orderId < (createOrder s itemId q).1.nextOrderId
    rcases createOrder_cases s itemId q with hc | hc
    · rw [hc] at ho' ⊢
      exact h o ho'
    · rw [hc] at ho' ⊢
      rcases List.mem_append.mp ho' with h1 | h1
      · exact lt_trans (h o h1) (lt_add_one _)
      · simp only [List.mem_singleton] at h1
        subst h1
        exact lt_add_one _
  | processC =>
    intro o ho
    have ho' : o ∈ (processNextOrder s).1.orderQueue := ho
    show o.orderId < (processNextOrder s).1.nextOrderId
    rcases processNextOrder_queue_cases s with ⟨hc, hn⟩ | ⟨order, rest, hq, hn, hc | hc⟩
    · rw [hc] at ho'
      rw [hn]
      exact h o ho'
    · rw [hc] at ho'
      rw [hn]
      exact h o (by rw [hq]; exact List.mem_cons_of_mem order ho')
    · rw [hc] at ho'
      rw [hn]
      rcases List.mem_append.mp ho' with h1 | h1
      · exact h o (by rw [hq]; exact List.mem_cons_of_mem order h1)
      · simp only [List.mem_singleton] at h1
        subst h1
        exact h o (by rw [hq]; exact List.mem_cons_self o rest)

/-- C4: `createOrder(itemId, quantity)` fails (reporting an invalid order
and leaving the whole state — queue, `nextOrderId`, transaction log —
unchanged) exactly when the item is absent or the quantity is nonpositive;
on success it appends to the back of the queue a new "Pending" order whose
id is the current `nextOrderId`, increments `nextOrderId`, and records an
"Order Created" transaction.  Freshness: over every command sequence from
every state, every queued order id stays strictly below `nextOrderId`, and
`nextOrderId` never decreases — so a newly assigned id (the current
`nextOrderId`) is strictly greater than every order id ever assigned
before. -/
theorem createOrder_exact (s : WarehouseSystem) (itemId q : Int) :
    (mapFind itemId s.inventory = none ∨ q ≤ 0 →
      createOrder s itemId q = (s, ["Invalid item ID or quantity!\n"])) ∧
    (∀ item, mapFind itemId s.inventory = some item → 0 < q →
      createOrder s itemId q =
        ({ s with
            orderQueue := s.orderQueue ++ [⟨s.nextOrderId, itemId, q, "Pending"⟩],
            nextOrderId := s.nextOrderId + 1,
            transactionHistory :=
              ⟨"Order Created", itemId, "Ordered " ++ strOfInt q ++ " units"⟩ ::
                s.transactionHistory },
          ["Order created successfully!\n"])) ∧
    (∀ s0 : WarehouseSystem, ∀ cmds : List Cmd,
      (∀ o ∈ s0.orderQueue, o.orderId < s0.nextOrderId) →
      ∀ o ∈ (run s0 cmds).orderQueue, o.orderId < (run s0 cmds).nextOrderId) ∧
    (∀ s0 : WarehouseSystem, ∀ cmds : List Cmd,
      s0.nextOrderId ≤ (run s0 cmds).nextOrderId) := by
  refine ⟨fun hfail => ?_, fun item hf hq => ?_, ?_, fun s0 cmds => run_nextOrderId_le cmds s0⟩
  · unfold createOrder findItem
    rcases hfail with hn | hq
    · rw [hn]
    · rcases hfound : mapFind itemId s.inventory with _ | v
      · rfl
      · dsimp only
        rw [if_neg (by omega)]
  · unfold createOrder findItem
    rw [hf]
    dsimp only
    rw [if_pos hq]
  · intro s0 cmds h
    induction cmds generalizing s0 with
    | nil => exact h
    | cons c cs ih => exact ih (stepCmd s0 c) (stepCmd_orderIdInv s0 c h)

/-- Witness for C4: creating an order for an absent item is a reported
no-op; creating a valid order appends a fresh "Pending" order with id 1 and
bumps `nextOrderId` to 2. -/
theorem createOrder_exact_witness :
    createOrder initState 7 3 = (initState, ["Invalid item ID or quantity!\n"]) ∧
    mapFind 5 exAdd.inventory = some ⟨5, "X", "C", 10, 0, 0⟩ ∧
    createOrder exAdd 5 3 =
      ({ exAdd with
          orderQueue := exAdd.orderQueue ++ [⟨exAdd.nextOrderId, 5, 3, "Pending"⟩],
          nextOrderId := exAdd.nextOrderId + 1,
          transactionHistory :=
            ⟨"Order Created", 5, "Ordered " ++ strOfInt 3 ++ " units"⟩ ::
              exAdd.transactionHistory },
        ["Order created successfully!\n"]) := by
  refine ⟨(createOrder_exact initState 7 3).1 (Or.inl (by decide)), by decide, ?_⟩
  exact (createOrder_exact exAdd 5 3).2.1 ⟨5, "X", "C", 10, 0, 0⟩ (by decide) (by decide)

theorem runRU_history (ops : List (Int ⊕ InventoryItem)) :
    ∀ s : WarehouseSystem, (runRU s ops).transactionHistory = s.transactionHistory := by
  induction ops with
  | nil => intro s; rfl
  | cons op rest ih =>
    intro s
    cases op with
    | inl id =>
      have h : runRU s (.inl id :: rest) = runRU ((removeItem s id).1) rest := rfl
      rw [h, ih]
      unfold removeItem; split <;> rfl
    | inr item =>
      have h : runRU s (.inr item :: rest) = runRU ((updateItem s item).1) rest := rfl
      rw [h, ih]
      unfold updateItem; split <;> rfl

/-- C10: `removeItem` and `updateItem` never append to the transaction log —
any sequence of them leaves the history exactly as it was — while `addItem`
always records an "Add" transaction, and `createOrder`/`processNextOrder`
record an "Order Created"/"Order Processed" transaction on success and
nothing otherwise. -/
theorem transactionHistory_frame (s : WarehouseSystem) :
    (∀ ops, (runRU s ops).transactionHistory = s.transactionHistory) ∧
    (∀ id, ((removeItem s id).1).transactionHistory = s.transactionHistory) ∧
    (∀ item, ((updateItem s item).1).transactionHistory = s.transactionHistory) ∧
    (∀ item, (addItem s item).transactionHistory =
      ⟨"Add", item.id, "Added " ++ item.name ++ " to category " ++ item.category⟩ ::
        s.transactionHistory) ∧
    (∀ itemId q, (createOrder s itemId q).1.transactionHistory = s.transactionHistory ∨
      (createOrder s itemId q).1.transactionHistory =
        ⟨"Order Created", itemId, "Ordered " ++ strOfInt q ++ " units"⟩ ::
          s.transactionHistory) ∧
    ((processNextOrder s).1.transactionHistory = s.transactionHistory ∨
      ∃ order : Order, (processNextOrder s).1.transactionHistory =
        ⟨"Order Processed", order.itemId,
          "Processed order #" ++ strOfInt order.orderId ++ " for " ++
            strOfInt order.quantity ++ " units"⟩ :: s.transactionHistory) := by
  refine ⟨fun ops => runRU_history ops s, fun id => ?_, fun item => ?_,
    fun item => rfl, fun itemId q => ?_, ?_⟩
  · unfold removeItem; split <;> rfl
  · unfold updateItem; split <;> rfl
  · rcases createOrder_cases s itemId q with hc | hc
    · left; rw [hc]
    · right; rw [hc]
  · unfold processNextOrder
    cases s.orderQueue with
    | nil => left; rfl
    | cons order rest =>
      dsimp only
      cases mapFind order.itemId s.inventory <;> dsimp only
      · left; rfl
      · split
        · right; exact ⟨order, rfl⟩
        · left; rfl

theorem takeWhile_all (p : Char → Bool) (l : List Char)
    (h : ∀ c ∈ l, p c = true) : l.takeWhile p = l := by
  induction l with
  | nil => rfl
  | cons c cs ih =>
    rw [List.takeWhile_cons, if_pos (h c (List.mem_cons_self c cs)),
      ih (fun x hx => h x (List.mem_cons_of_mem c hx))]

theorem takeWhile_append_stop (p : Char → Bool) (l : List Char) (x : Char)
    (r : List Char) (hl : ∀ c ∈ l, p c = true) (hx : p x = false) :
    (l ++ x :: r).takeWhile p = l := by
  induction l with
  | nil => simp [List.takeWhile_cons, hx]
  | cons c cs ih =>
    rw [List.cons_append, List.takeWhile_cons,
      if_pos (hl c (List.mem_cons_self c cs)),
      ih (fun y hy => hl y (List.mem_cons_of_mem c hy))]

theorem dropWhile_append_stop (p : Char → Bool) (l : List Char) (x : Char)
    (r : List Char) (hl : ∀ c ∈ l, p c = true) (hx : p x = false) :
    (l ++ x :: r).dropWhile p = x :: r := by
  induction l with
  | nil => simp [List.dropWhile_cons, hx]
  | cons c cs ih =>
    rw [List.cons_append, List.dropWhile_cons,
      if_pos (hl c (List.mem_cons_self c cs)),
      ih (fun y hy => hl y (List.mem_cons_of_mem c hy))]

theorem dChar_toNat_sub (d : Nat) (h : d < 10) : (dChar d).toNat - 48 = d := by
  unfold dChar; interval_cases d <;> decide

theorem isDigitChar_dChar (d : Nat) (h : d < 10) : isDigitChar (dChar d) = true := by
  unfold dChar isDigitChar; interval_cases d <;> decide

theorem isWSChar_dChar (d : Nat) (h : d < 10) : isWSChar (dChar d) = false := by
  unfold dChar isWSChar; interval_cases d <;> decide

theorem dChar_ne (d : Nat) (h : d < 10) :
    dChar d ≠ '-' ∧ dChar d ≠ '+' ∧ dChar d ≠ ',' ∧ dChar d ≠ '\n' ∧ dChar d ≠ '.' := by
  unfold dChar; interval_cases d <;> decide

theorem natDigitsAux_lt10 (fuel : Nat) : ∀ n : Nat, ∀ d ∈ natDigitsAux fuel n, d < 10 := by
  induction fuel with
  | zero => intro n d hd; simp [natDigitsAux] at hd
  | succ f ih =>
    intro n d hd
    cases n with
    | zero => simp [natDigitsAux] at hd
    | succ m =>
      rw [show natDigitsAux (f + 1) (m + 1) =
        ((m + 1) % 10) :: natDigitsAux f ((m + 1) / 10) from rfl] at hd
      rcases List.mem_cons.mp hd with h1 | h1
      · subst h1; omega
      · exact ih _ d h1

theorem valLE_cons (d : Nat) (l : List Nat) : valLE (d :: l) = d + 10 * valLE l := rfl

theorem valLE_natDigitsAux (fuel : Nat) : ∀ n : Nat, n ≤ fuel →
    valLE (natDigitsAux fuel n) = n := by
  induction fuel with
  | zero => intro n hn; interval_cases n; rfl
  | succ f ih =>
    intro n hn
    cases n with
    | zero => rfl
    | succ m =>
      rw [show natDigitsAux (f + 1) (m + 1) =
        ((m + 1) % 10) :: natDigitsAux f ((m + 1) / 10) from rfl]
      rw [valLE_cons, ih ((m + 1) / 10) (by omega)]
      omega

theorem natDigitsAux_ne_nil (fuel n : Nat) (h0 : 0 < n) (hf : 0 < fuel) :
    natDigitsAux fuel n ≠ [] := by
  cases fuel with
  | zero => omega
  | succ f =>
    cases n with
    | zero => omega
    | succ m => simp [natDigitsAux]

theorem printNat_ne_nil (n : Nat) : printNat n ≠ [] := by
  unfold printNat
  split
  · simp
  · rename_i h
    simp only [ne_eq, List.map_eq_nil_iff, List.reverse_eq_nil_iff]
    exact natDigitsAux_ne_nil n n (by omega) (by omega)

theorem printNat_chars (n : Nat) : ∀ c ∈ printNat n, ∃ d, d < 10 ∧ c = dChar d := by
  unfold printNat
  split
  · intro c hc
    simp only [List.mem_singleton] at hc
    subst hc
    exact ⟨0, by omega, by decide⟩
  · intro c hc
    simp only [List.mem_map, List.mem_reverse] at hc
    obtain ⟨d, hd, rfl⟩ := hc
    exact ⟨d, natDigitsAux_lt10 n n d hd, rfl⟩

theorem foldl_digits_map (L : List Nat) (hL : ∀ d ∈ L, d < 10) :
    ∀ a : Nat, (L.map dChar).foldl (fun a c => 10 * a + (c.toNat - 48)) a =
      L.foldl (fun a d => 10 * a + d) a := by
  induction L with
  | nil => intro a; rfl
  | cons d t ih =>
    intro a
    simp only [List.map_cons, List.foldl_cons]
    rw [dChar_toNat_sub d (hL d (List.mem_cons_self d t)),
      ih (fun x hx => hL x (List.mem_cons_of_mem d hx))]

theorem foldl_rev_val (L : List Nat) : ∀ a : Nat,
    L.reverse.foldl (fun a d => 10 * a + d) a = a * 10 ^ L.length + valLE L := by
  induction L with
  | nil => intro a; simp [valLE]
  | cons d t ih =>
    intro a
    simp only [List.reverse_cons, List.foldl_append, List.foldl_cons, List.foldl_nil]
    rw [ih a, valLE_cons, List.length_cons]
    ring

theorem printNat_val (n : Nat) :
    (printNat n).foldl (fun a c => 10 * a + (c.toNat - 48)) 0 = n := by
  by_cases h : n = 0
  · subst h; decide
  · rw [show printNat n = ((natDigitsAux n n).reverse).map dChar by
      unfold printNat; rw [if_neg h]]
    rw [foldl_digits_map _ (fun d hd => natDigitsAux_lt10 n n d (List.mem_reverse.mp hd)) 0]
    rw [foldl_rev_val, valLE_natDigitsAux n n (le_refl n)]
    simp

theorem printNat_all_digit (n : Nat) : ∀ c ∈ printNat n, isDigitChar c = true := by
  intro c hc
  obtain ⟨d, hd, rfl⟩ := printNat_chars n c hc
  exact isDigitChar_dChar d hd

theorem printNat_isEmpty (n : Nat) : (printNat n).isEmpty = false := by
  cases hpn : printNat n
  · exact absurd hpn (printNat_ne_nil n)
  · rfl

theorem printNat_head (n : Nat) : ∃ c cs, printNat n = c :: cs ∧
    isWSChar c = false ∧ c ≠ '-' ∧ c ≠ '+' := by
  rcases he : printNat n with _ | ⟨c, cs⟩
  · exact absurd he (printNat_ne_nil n)
  · have hc : c ∈ printNat n := by rw [he]; exact List.mem_cons_self c cs
    obtain ⟨d, hd, rfl⟩ := printNat_chars n c hc
    exact ⟨_, cs, rfl, isWSChar_dChar d hd, (dChar_ne d hd).1, (dChar_ne d hd).2.1⟩

theorem digitsVal_printNat (n : Nat) : digitsVal (printNat n) = some n := by
  unfold digitsVal
  rw [takeWhile_all _ _ (printNat_all_digit n), printNat_isEmpty]
  simp only [Bool.false_eq_true, if_false]
  rw [printNat_val]

theorem stoiChars_printNat (n : Nat) : stoiChars (printNat n) = some (n : Int) := by
  obtain ⟨c, cs, hcons, hws, hminus, hplus⟩ := printNat_head n
  unfold stoiChars
  rw [hcons, List.dropWhile_cons, hws]
  simp only [Bool.false_eq_true, if_false]
  rw [if_neg hminus, if_neg hplus, ← hcons, digitsVal_printNat]
  rfl


theorem stoiChars_printInt (i : Int) : stoiChars (printInt i) = some i := by
  unfold printInt
  split
  · rename_i hneg
    unfold stoiChars
    rw [List.dropWhile_cons, show isWSChar '-' = false from rfl]
    simp only [Bool.false_eq_true, if_false, if_true, digitsVal_printNat,
      Option.map_some']
    congr 1
    simp only [Int.ofNat_eq_coe]
    omega
  · rename_i hpos
    rw [stoiChars_printNat]
    congr 1
    omega

theorem foldl_two_digits (d1 d2 : Nat) (h1 : d1 < 10) (h2 : d2 < 10) :
    ([dChar d1, dChar d2].foldl (fun a c => 10 * a + (c.toNat - 48)) 0) =
      10 * d1 + d2 := by
  simp only [List.foldl_cons, List.foldl_nil]
  rw [dChar_toNat_sub d1 h1, dChar_toNat_sub d2 h2]
  omega

theorem decVal_priceBody (m : Nat) : decVal (priceBody m) = some ((m : ℚ) / 100) := by
  have htwo : ∀ c ∈ [dChar (m / 10 % 10), dChar (m % 10)], isDigitChar c = true := by
    intro c hc
    simp only [List.mem_cons, List.not_mem_nil, or_false] at hc
    rcases hc with rfl | rfl
    · exact isDigitChar_dChar _ (by omega)
    · exact isDigitChar_dChar _ (by omega)
  unfold decVal priceBody
  rw [dropWhile_append_stop _ _ _ _ (printNat_all_digit _) (by decide)]
  dsimp only
  rw [if_pos rfl]
  rw [takeWhile_append_stop _ _ _ _ (printNat_all_digit _) (by decide)]
  rw [takeWhile_all _ _ htwo, printNat_isEmpty]
  simp only [Bool.false_and, Bool.false_eq_true, if_false]
  rw [printNat_val, foldl_two_digits _ _ (by omega) (by omega)]
  rw [show ([dChar (m / 10 % 10), dChar (m % 10)] : List Char).length = 2 from rfl]
  congr 1
  have key : ∀ a b : ℕ, 100 * a + b = m →
      ((a : ℚ) + (b : ℚ) / (10 : ℚ) ^ 2 = (m : ℚ) / 100) := by
    intro a b hab
    rw [← hab]
    push_cast
    ring
  exact key _ _ (by omega)

theorem priceBody_head (m : Nat) : ∃ c cs, priceBody m = c :: cs ∧
    isWSChar c = false ∧ c ≠ '-' ∧ c ≠ '+' := by
  obtain ⟨c, cs, hcons, hws, hm, hp⟩ := printNat_head (m / 100)
  unfold priceBody
  rw [hcons]
  exact ⟨c, cs ++ _, rfl, hws, hm, hp⟩

theorem stodChars_priceBody (m : Nat) : stodChars (priceBody m) = some ((m : ℚ) / 100) := by
  obtain ⟨c, cs, hcons, hws, hminus, hplus⟩ := priceBody_head m
  unfold stodChars
  rw [hcons, List.dropWhile_cons, hws]
  simp only [Bool.false_eq_true, if_false]
  rw [if_neg hminus, if_neg hplus, ← hcons, decVal_priceBody]

theorem stodChars_printPrice (p : ℚ) :
    stodChars (printPrice p) =
      some (((round ((100 : ℚ) * p) : Int) : ℚ) / 100) := by
  unfold printPrice
  split
  · rename_i hneg
    unfold stodChars
    rw [List.dropWhile_cons, show isWSChar '-' = false from rfl]
    simp only [Bool.false_eq_true, if_false, if_true, decVal_priceBody, Option.map_some']
    congr 1
    have h1 : ((round ((100 : ℚ) * p)).natAbs : ℤ) = -(round ((100 : ℚ) * p)) := by
      omega
    have h2 : (((round ((100 : ℚ) * p)).natAbs : ℕ) : ℚ) =
        -((round ((100 : ℚ) * p) : ℤ) : ℚ) := by
      have h3 : (((round ((100 : ℚ) * p)).natAbs : ℕ) : ℚ) =
          (((round ((100 : ℚ) * p)).natAbs : ℤ) : ℚ) := (Int.cast_natCast _).symm
      rw [h3, h1, Int.cast_neg]
    rw [h2]
    ring
  · rename_i hpos
    rw [stodChars_priceBody]
    congr 1
    have h1 : ((round ((100 : ℚ) * p)).toNat : ℤ) = round ((100 : ℚ) * p) := by
      omega
    have h2 : (((round ((100 : ℚ) * p)).toNat : ℕ) : ℚ) =
        ((round ((100 : ℚ) * p) : ℤ) : ℚ) := by
      have h3 : (((round ((100 : ℚ) * p)).toNat : ℕ) : ℚ) =
          (((round ((100 : ℚ) * p)).toNat : ℤ) : ℚ) := (Int.cast_natCast _).symm
      rw [h3, h1]
    rw [h2]

theorem printNat_no_comma (n : Nat) : ',' ∉ printNat n := by
  intro hc
  obtain ⟨d, hd, he⟩ := printNat_chars n _ hc
  exact (dChar_ne d hd).2.2.1 he.symm

theorem printNat_no_nl (n : Nat) : '\n' ∉ printNat n := by
  intro hc
  obtain ⟨d, hd, he⟩ := printNat_chars n _ hc
  exact (dChar_ne d hd).2.2.2.1 he.symm

theorem printInt_no_comma (i : Int) : ',' ∉ printInt i := by
  unfold printInt
  split
  · intro hc
    rcases List.mem_cons.mp hc with h | h
    · exact absurd h (by decide)
    · exact printNat_no_comma _ h
  · exact printNat_no_comma _

theorem printInt_no_nl (i : Int) : '\n' ∉ printInt i := by
  unfold printInt
  split
  · intro hc
    rcases List.mem_cons.mp hc with h | h
    · exact absurd h (by decide)
    · exact printNat_no_nl _ h
  · exact printNat_no_nl _

theorem printInt_ne_nil (i : Int) : printInt i ≠ [] := by
  unfold printInt
  split
  · simp
  · exact printNat_ne_nil _

theorem priceBody_no_comma (m : Nat) : ',' ∉ priceBody m := by
  unfold priceBody
  intro hc
  rcases List.mem_append.mp hc with h | h
  · exact printNat_no_comma _ h
  · rcases List.mem_cons.mp h with h2 | h2
    · exact absurd h2 (by decide)
    · simp only [List.mem_cons, List.not_mem_nil, or_false] at h2
      rcases h2 with h3 | h3
      · exact (dChar_ne _ (by omega)).2.2.1 h3.symm
      · exact (dChar_ne _ (by omega)).2.2.1 h3.symm

theorem priceBody_no_nl (m : Nat) : '\n' ∉ priceBody m := by
  unfold priceBody
  intro hc
  rcases List.mem_append.mp hc with h | h
  · exact printNat_no_nl _ h
  · rcases List.mem_cons.mp h with h2 | h2
    · exact absurd h2 (by decide)
    · simp only [List.mem_cons, List.not_mem_nil, or_false] at h2
      rcases h2 with h3 | h3
      · exact (dChar_ne _ (by omega)).2.2.2.1 h3.symm
      · exact (dChar_ne _ (by omega)).2.2.2.1 h3.symm

theorem printPrice_no_comma (p : ℚ) : ',' ∉ printPrice p := by
  unfold printPrice
  split
  · intro hc
    rcases List.mem_cons.mp hc with h | h
    · exact absurd h (by decide)
    · exact priceBody_no_comma _ h
  · exact priceBody_no_comma _

theorem printPrice_no_nl (p : ℚ) : '\n' ∉ printPrice p := by
  unfold printPrice
  split
  · intro hc
    rcases List.mem_cons.mp hc with h | h
    · exact absurd h (by decide)
    · exact priceBody_no_nl _ h
  · exact priceBody_no_nl _

theorem splitAtDelim_append (d : Char) (tok rest : List Char) (h : d ∉ tok) :
    splitAtDelim d (tok ++ d :: rest) = (tok, rest, false) := by
  induction tok with
  | nil => simp [splitAtDelim]
  | cons c t ih =>
    have hc : c ≠ d := fun he => h (he ▸ List.mem_cons_self c t)
    rw [List.cons_append]
    simp [splitAtDelim, hc, ih (fun hm => h (List.mem_cons_of_mem c hm))]

theorem splitAtDelim_no_delim (d : Char) (tok : List Char) (h : d ∉ tok) :
    splitAtDelim d tok = (tok, [], true) := by
  induction tok with
  | nil => rfl
  | cons c t ih =>
    have hc : c ≠ d := fun he => h (he ▸ List.mem_cons_self c t)
    simp [splitAtDelim, hc, ih (fun hm => h (List.mem_cons_of_mem c hm))]

theorem getlineStep_field (tok rest cur : List Char) (h : ',' ∉ tok) :
    getlineStep (tok ++ ',' :: rest, false, false) cur = (tok, (rest, false, false)) := by
  have hs := splitAtDelim_append ',' tok rest h
  cases tok with
  | nil =>
    unfold getlineStep
    rw [if_neg (by simp)]
    rw [List.nil_append] at hs ⊢
    simp [hs]
  | cons c t =>
    unfold getlineStep
    rw [if_neg (by simp)]
    rw [List.cons_append] at hs ⊢
    simp [hs]

theorem getlineStep_last (tok cur : List Char) (h : ',' ∉ tok) (hne : tok ≠ []) :
    getlineStep (tok, false, false) cur = (tok, ([], true, false)) := by
  have hs := splitAtDelim_no_delim ',' tok h
  cases tok with
  | nil => exact absurd rfl hne
  | cons c t =>
    unfold getlineStep
    rw [if_neg (by simp)]
    simp [hs]

theorem parseLine_itemLine (item : InventoryItem) (h : CommaSafe item) :
    parseLine (itemLine item) = some (roundItem item) := by
  obtain ⟨hnc, hnn, hcc, hcn⟩ := h
  unfold parseLine itemLine
  simp only [getlineStep_field _ _ _ (printInt_no_comma item.id),
    getlineStep_field _ _ _ hnc,
    getlineStep_field _ _ _ hcc,
    getlineStep_field _ _ _ (printInt_no_comma item.quantity),
    getlineStep_field _ _ _ (printPrice_no_comma item.price),
    getlineStep_last _ _ (printInt_no_comma item.minStockLevel) (printInt_ne_nil _),
    stoiChars_printInt, stodChars_printPrice]
  rfl

theorem itemLine_no_nl (item : InventoryItem) (h : CommaSafe item) :
    '\n' ∉ itemLine item := by
  obtain ⟨_, hnn, _, hcn⟩ := h
  unfold itemLine
  intro hc
  simp only [List.mem_append, List.mem_cons] at hc
  rcases hc with h1 | h1 | h1 | h1 | h1 | h1 | h1 | h1 | h1 | h1 | h1
  · exact printInt_no_nl item.id h1
  · exact absurd h1 (by decide)
  · exact hnn h1
  · exact absurd h1 (by decide)
  · exact hcn h1
  · exact absurd h1 (by decide)
  · exact printInt_no_nl item.quantity h1
  · exact absurd h1 (by decide)
  · exact printPrice_no_nl item.price h1
  · exact absurd h1 (by decide)
  · exact printInt_no_nl item.minStockLevel h1

theorem getlineTokens_append (d : Char) (tok rest : List Char) (h : d ∉ tok) :
    getlineTokens d (tok ++ d :: rest) = tok :: getlineTokens d rest := by
  induction tok with
  | nil =>
    rw [List.nil_append, getlineTokens]
    simp
  | cons c t ih =>
    have hc : c ≠ d := fun he => h (he ▸ List.mem_cons_self c t)
    rw [List.cons_append, getlineTokens,
      if_neg hc, ih (fun hm => h (List.mem_cons_of_mem c hm))]

theorem saveLines_tokens (inv : List (Int × InventoryItem))
    (h : ∀ p ∈ inv, CommaSafe p.2) :
    getlineTokens '\n' (saveLines inv) = inv.map (fun p => itemLine p.2) := by
  induction inv with
  | nil => rfl
  | cons p rest ih =>
    rw [show saveLines (p :: rest) = itemLine p.2 ++ '\n' :: saveLines rest from rfl]
    rw [getlineTokens_append _ _ _ (itemLine_no_nl p.2 (h p (List.mem_cons_self p rest)))]
    rw [ih (fun q hq => h q (List.mem_cons_of_mem p hq))]
    rfl

theorem headerChars_no_nl : '\n' ∉ headerChars := by decide

theorem saveToFile_tokens (inv : List (Int × InventoryItem))
    (h : ∀ p ∈ inv, CommaSafe p.2) :
    getlineTokens '\n' (saveToFile inv) =
      headerChars :: inv.map (fun p => itemLine p.2) := by
  unfold saveToFile
  rw [getlineTokens_append _ _ _ headerChars_no_nl, saveLines_tokens inv h]

theorem mapInsert_append_big (l : List (Int × InventoryItem)) (k : Int)
    (v : InventoryItem) (h : ∀ p ∈ l, p.1 < k) :
    mapInsert k v l = l ++ [(k, v)] := by
  induction l with
  | nil => rfl
  | cons p rest ih =>
    obtain ⟨k', v'⟩ := p
    have hk : k' < k := h (k', v') (List.mem_cons_self _ _)
    unfold mapInsert
    rw [if_neg (by omega), if_neg (by omega),
      ih (fun q hq => h q (List.mem_cons_of_mem _ hq))]
    rfl

theorem itemTuple_roundItem (item : InventoryItem) :
    itemTuple (roundItem item) = itemTuple item := by
  have h1 : (100 : ℚ) * (((round ((100 : ℚ) * item.price) : ℤ) : ℚ) / 100) =
      ((round ((100 : ℚ) * item.price) : ℤ) : ℚ) := by ring
  unfold itemTuple roundItem
  dsimp only
  rw [h1, round_intCast]

theorem loadLines_roundtrip (inv : List (Int × InventoryItem)) :
    ∀ acc : List (Int × InventoryItem), ∀ nid : Int,
    inv.Pairwise (fun p q => p.1 < q.1) →
    (∀ p ∈ inv, p.1 = p.2.id) →
    (∀ p ∈ inv, CommaSafe p.2) →
    (∀ q ∈ acc, ∀ p ∈ inv, q.1 < p.1) →
    ∃ nid2, loadLines (inv.map (fun p => itemLine p.2)) acc nid =
      some (acc ++ inv.map (fun p => (p.1, roundItem p.2)), nid2) := by
  induction inv with
  | nil =>
    intro acc nid _ _ _ _
    exact ⟨nid, by simp [loadLines]⟩
  | cons p rest ih =>
    intro acc nid hs hid hcs hacc
    rw [List.map_cons, loadLines,
      parseLine_itemLine p.2 (hcs p (List.mem_cons_self p rest))]
    dsimp only
    have hidp : (roundItem p.2).id = p.1 := by
      rw [show (roundItem p.2).id = p.2.id from rfl,
        ← hid p (List.mem_cons_self p rest)]
    rw [show mapInsert (roundItem p.2).id (roundItem p.2) acc =
        acc ++ [(p.1, roundItem p.2)] from by
      rw [hidp]
      exact mapInsert_append_big acc p.1 _
        (fun q hq => hacc q hq p (List.mem_cons_self p rest))]
    have hacc2 : ∀ q ∈ acc ++ [(p.1, roundItem p.2)], ∀ r ∈ rest, q.1 < r.1 := by
      intro q hq r hr
      rcases List.mem_append.mp hq with h3 | h3
      · exact hacc q h3 r (List.mem_cons_of_mem p hr)
      · simp only [List.mem_singleton] at h3
        subst h3
        exact (List.pairwise_cons.mp hs).1 r hr
    obtain ⟨nid2, h2⟩ := ih (acc ++ [(p.1, roundItem p.2)])
      (max nid ((roundItem p.2).id + 1))
      (List.pairwise_cons.mp hs).2
      (fun q hq => hid q (List.mem_cons_of_mem p hq))
      (fun q hq => hcs q (List.mem_cons_of_mem p hq))
      hacc2
    refine ⟨nid2, ?_⟩
    rw [h2, List.append_assoc]
    rfl

/-- C5 (amended): for every well-formed catalog (ids strictly ascending,
keys matching item ids — an invariant of the `std::map`) in which no item's
name or category contains a comma or a newline, saving to the backing file
and loading that file into a fresh engine yields the same set of
{id, name, category, quantity, price, minStockLevel} tuples, with price
compared at 2-decimal precision (as a whole number of cents). -/
theorem saveToFile_loadFromFile_roundtrip (inv : List (Int × InventoryItem))
    (hwf : InvWF inv) (hcs : ∀ p ∈ inv, CommaSafe p.2) :
    ∃ inv2 nid, loadFromFile (saveToFile inv) = some (inv2, nid) ∧
      ∀ t, t ∈ inv2.map (fun p => itemTuple p.2) ↔
        t ∈ inv.map (fun p => itemTuple p.2) := by
  obtain ⟨hs, hid⟩ := hwf
  unfold loadFromFile
  rw [saveToFile_tokens inv hcs]
  dsimp only
  obtain ⟨nid2, h2⟩ := loadLines_roundtrip inv [] 1 hs hid hcs (by simp)
  refine ⟨inv.map (fun p => (p.1, roundItem p.2)), nid2, by rw [h2]; simp, fun t => ?_⟩
  have hmm : (inv.map (fun p => (p.1, roundItem p.2))).map (fun p => itemTuple p.2) =
      inv.map (fun p => itemTuple p.2) := by
    rw [List.map_map,
      show ((fun p : Int × InventoryItem => itemTuple p.2) ∘
        (fun p : Int × InventoryItem => (p.1, roundItem p.2))) =
        fun p : Int × InventoryItem => itemTuple (roundItem p.2) from rfl,
      funext (fun p : Int × InventoryItem => itemTuple_roundItem p.2)]
  rw [hmm]

/-- Witness for the amended C5 on a concrete one-item catalog. -/
theorem saveToFile_loadFromFile_roundtrip_witness :
    InvWF ([(1, ⟨1, "Widget", "Tools", 5, 7/2, 2⟩)] : List (Int × InventoryItem)) ∧
    (∀ p ∈ ([(1, ⟨1, "Widget", "Tools", 5, 7/2, 2⟩)] : List (Int × InventoryItem)),
      CommaSafe p.2) ∧
    ∃ inv2 nid,
      loadFromFile (saveToFile [(1, ⟨1, "Widget", "Tools", 5, 7/2, 2⟩)]) =
        some (inv2, nid) ∧
      ∀ t, t ∈ inv2.map (fun p => itemTuple p.2) ↔
        t ∈ ([(1, ⟨1, "Widget", "Tools", 5, 7/2, 2⟩)] :
          List (Int × InventoryItem)).map (fun p => itemTuple p.2) := by
  have h1 : InvWF ([(1, ⟨1, "Widget", "Tools", 5, 7/2, 2⟩)] :
      List (Int × InventoryItem)) := by decide
  have h2 : ∀ p ∈ ([(1, ⟨1, "Widget", "Tools", 5, 7/2, 2⟩)] :
      List (Int × InventoryItem)), CommaSafe p.2 := by decide
  exact ⟨h1, h2, saveToFile_loadFromFile_roundtrip _ h1 h2⟩

/-- C5 counterexample: an item whose name contains a comma ("a,b") produces
a CSV row with seven fields; on reload the quantity field reads "Cat" and
the `std::stoi` conversion throws, so loading the saved file does not yield
the original tuples (the load aborts). -/
theorem saveToFile_loadFromFile_counterexample :
    loadFromFile (saveToFile [(1, ⟨1, "a,b", "Cat", 5, 157/50, 2⟩)]) = none ∧
    ¬ ∃ inv2 nid,
        loadFromFile (saveToFile [(1, ⟨1, "a,b", "Cat", 5, 157/50, 2⟩)]) =
          some (inv2, nid) ∧
        ∀ t, t ∈ inv2.map (fun p => itemTuple p.2) ↔
          t ∈ ([(1, ⟨1, "a,b", "Cat", 5, 157/50, 2⟩)] :
            List (Int × InventoryItem)).map (fun p => itemTuple p.2) := by
  have hround : round ((100 : ℚ) * (157 / 50 : ℚ)) = 314 := by norm_num [round_eq]
  have hpp : printPrice (157 / 50 : ℚ) = ['3', '.', '1', '4'] := by
    unfold printPrice
    rw [hround]
    decide
  have hsave : saveToFile [(1, ⟨1, "a,b", "Cat", 5, 157/50, 2⟩)] =
      "ID,Name,Category,Quantity,Price,MinStockLevel\n1,a,b,Cat,5,3.14,2\n".data := by
    unfold saveToFile saveLines itemLine
    rw [show (⟨1, "a,b", "Cat", 5, 157/50, 2⟩ : InventoryItem).price =
      (157 / 50 : ℚ) from rfl, hpp]
    decide
  have hnone : loadFromFile (saveToFile [(1, ⟨1, "a,b", "Cat", 5, 157/50, 2⟩)]) = none := by
    rw [hsave]
    decide
  refine ⟨hnone, ?_⟩
  rintro ⟨inv2, nid, h2, _⟩
  rw [hnone] at h2
  exact Option.noConfusion h2
